import Mathlib

/-!
Verification of the 1-D finite element solver of the notebook
"Lecture 13 - LH - LAB - Lax Milgram and Cea's Lemma".

The notebook defines affine element mappings (`mapping`, `mapping_J`),
Lagrange reference bases (`lagrange_basis`, `lagrange_basis_derivative`) and a
solver `fem(M, exact_function, rhs_function, degree, a, b)` that builds a DOF
table `P`, a Gauss quadrature rule rescaled from [-1,1] to [0,1], the global
stiffness matrix and load vector, imposes Dirichlet conditions by row
replacement, solves the dense system and returns the L2 error.

Everything below is a shallow embedding of that code in exact real arithmetic.
The two external library calls (`numpy.polynomial.legendre.leggauss` and
`numpy.linalg.solve`) are not part of the repository; the quadrature rule is
therefore passed in as a parameter (with its defining exactness property stated
as a hypothesis where needed) and the linear solve is modelled from the spec.
-/

open Finset

/-! ## DOF numbering table (integer part of the code)

The code builds `P` by `P[k] = array(range(start, start+degree+1))` with
`start = k*degree`, for `k` in `range(M)`. -/

/-- The DOF table: row `k` is `range(k*degree, k*degree + degree + 1)`. -/
def P (M degree : ℕ) : List (List ℕ) :=
  (List.range M).map (fun k => List.range' (k * degree) (degree + 1))

/-- Total access to entry `P[k][α]` (defaulting to `0` out of range). -/
def Pentry (M degree k α : ℕ) : ℕ := ((P M degree).getD k []).getD α 0

/-- Maximum of a list of naturals, as `numpy`'s `max` reduction (0 on empty). -/
def listMax (l : List ℕ) : ℕ := l.foldr max 0

/-- Maximum entry of a table of naturals, as `P.max()`. -/
def tableMax (t : List (List ℕ)) : ℕ := listMax (t.map listMax)

lemma listMax_nil : listMax [] = 0 := rfl

lemma listMax_cons (a : ℕ) (l : List ℕ) : listMax (a :: l) = max a (listMax l) := rfl

lemma listMax_append (l1 l2 : List ℕ) :
    listMax (l1 ++ l2) = max (listMax l1) (listMax l2) := by
  induction l1 with
  | nil => simp [listMax]
  | cons a l ih => simp [listMax_cons, ih, max_assoc]

lemma listMax_range' (s n : ℕ) : listMax (List.range' s (n + 1)) = s + n := by
  induction n generalizing s with
  | zero => simp [listMax]
  | succ n ih =>
      rw [List.range'_succ, listMax_cons, ih]
      omega

lemma P_getD (M d k : ℕ) (hk : k < M) :
    (P M d).getD k [] = List.range' (k * d) (d + 1) := by
  simp [P, List.getD_eq_getElem?_getD, List.getElem?_map, List.getElem?_range hk]

lemma Pentry_eq (M d k α : ℕ) (hk : k < M) (hα : α < d + 1) :
    Pentry M d k α = k * d + α := by
  rw [Pentry, P_getD M d k hk]
  simp [List.getD_eq_getElem?_getD, List.getElem?_range' _ _ hα]

lemma tableMax_P (M d : ℕ) (hM : 1 ≤ M) : tableMax (P M d) = M * d := by
  obtain ⟨m, rfl⟩ : ∃ m, M = m + 1 := ⟨M - 1, by omega⟩
  clear hM
  induction m with
  | zero =>
      rw [tableMax, P, show List.range (0 + 1) = [0] by decide]
      simp only [List.map_cons, List.map_nil, Nat.zero_mul, listMax_range', listMax_cons,
        listMax_nil, Nat.max_zero]
      omega
  | succ m ih =>
      rw [tableMax, P, List.range_succ, List.map_append, List.map_append,
        listMax_append]
      rw [tableMax, P] at ih
      rw [ih]
      simp only [List.map_cons, List.map_nil, listMax_range', Function.comp]
      rw [listMax_cons]
      simp only [listMax, List.foldr_nil, Nat.max_zero]
      ring_nf
      omega

/-- Claim C1: for every `M ≥ 1` and `degree ≥ 1`, the DOF table `P` built by
`fem` satisfies `P[k][α] = k*degree + α` (hence row `k` is
`[k*d, k*d+1, …, k*d+d]`), consecutive rows overlap in exactly the shared
vertex DOF (`P[k][d] = P[k+1][0]`), and the maximum entry is `M*d = N - 1`
where `N = M*d + 1` is the total DOF count. -/
theorem P_table_spec (M d : ℕ) (hM : 1 ≤ M) (hd : 1 ≤ d) :
    (∀ k, k < M → ∀ α, α < d + 1 → Pentry M d k α = k * d + α)
    ∧ (∀ k, k + 1 < M → Pentry M d k d = Pentry M d (k + 1) 0)
    ∧ tableMax (P M d) = M * d ∧ M * d = (M * d + 1) - 1 := by
  refine ⟨fun k hk α hα => Pentry_eq M d k α hk hα, fun k hk => ?_, tableMax_P M d hM, rfl⟩
  rw [Pentry_eq M d k d (by omega) (by omega), Pentry_eq M d (k + 1) 0 hk (by omega)]
  ring

/-- Witness for C1 at `M = 2`, `d = 3`. -/
theorem P_table_spec_witness :
    (1 ≤ 2 ∧ 1 ≤ 3) ∧ Pentry 2 3 1 2 = 1 * 3 + 2 ∧ tableMax (P 2 3) = 2 * 3 :=
  ⟨⟨by norm_num, by norm_num⟩,
    (P_table_spec 2 3 (by norm_num) (by norm_num)).1 1 (by norm_num) 2 (by norm_num),
    (P_table_spec 2 3 (by norm_num) (by norm_num)).2.2.1⟩

/-! ## Reference element, mappings and Lagrange bases (real part of the code) -/

noncomputable section

/-- `numpy.linspace(a, b, num)`: `num` equally spaced points from `a` to `b`,
as the function `i ↦ a + i*(b-a)/(num-1)`. -/
def linspace (a b : ℝ) (num : ℕ) : ℕ → ℝ :=
  fun i => a + (i : ℝ) * (b - a) / ((num - 1 : ℕ) : ℝ)

/-- `mapping(q, i)`: the affine map from `[0,1]` to `[q[i], q[i+1]]`. -/
def mapping (q : ℕ → ℝ) (i : ℕ) : ℝ → ℝ :=
  fun x => q i + x * (q (i + 1) - q i)

/-- `mapping_J(q, i)`: the (constant) Jacobian of `mapping(q, i)`. -/
def mapping_J (q : ℕ → ℝ) (i : ℕ) : ℝ := q (i + 1) - q i

/-- `lagrange_basis(q, i)` where `q` has `n` points: the product
`∏_{j ≠ i} (x - q[j])/(q[i] - q[j])`. -/
def lagrange_basis (q : ℕ → ℝ) (n i : ℕ) : ℝ → ℝ :=
  fun x => ∏ j ∈ (Finset.range n).erase i, (x - q j) / (q i - q j)

/-- `lagrange_basis_derivative(q, i)`: the code differentiates the Lagrange
polynomial symbolically (exactly); modelled as the exact derivative. -/
def lagrange_basis_derivative (q : ℕ → ℝ) (n i : ℕ) : ℝ → ℝ :=
  deriv (lagrange_basis q n i)

/-- `n_quadrature_points = 2*degree + 1` in `fem`. -/
def nQ (degree : ℕ) : ℕ := 2 * degree + 1

/-- `ref_vertices = linspace(0, 1, degree+1)` in `fem`. -/
def ref_vertices (degree : ℕ) : ℕ → ℝ := linspace 0 1 (degree + 1)

/-- `vertices = linspace(a, b, M+1)` in `fem`. -/
def vertices (a b : ℝ) (M : ℕ) : ℕ → ℝ := linspace a b (M + 1)

lemma ref_vertices_eq (d i : ℕ) : ref_vertices d i = (i : ℝ) / d := by
  simp [ref_vertices, linspace]

lemma ref_vertices_injOn (d : ℕ) (hd : 1 ≤ d) {i j : ℕ}
    (hne : i ≠ j) : ref_vertices d i ≠ ref_vertices d j := by
  rw [ref_vertices_eq, ref_vertices_eq]
  have hd0 : (d : ℝ) ≠ 0 := Nat.cast_ne_zero.mpr (by omega)
  intro h
  rw [div_eq_div_iff hd0 hd0, mul_left_inj' hd0] at h
  exact hne (Nat.cast_injective h)

lemma vertices_mapping_J (a b : ℝ) (M : ℕ) (hM : 1 ≤ M) (k : ℕ) :
    mapping_J (vertices a b M) k = (b - a) / M := by
  have h : ((M + 1 - 1 : ℕ) : ℝ) = (M : ℝ) := by norm_num
  simp only [mapping_J, vertices, linspace, h]
  push_cast
  ring

/-- Claim C3: for every degree `d ≥ 1` and local indices `α, β ≤ d`, the
reference Lagrange basis `lagrange_basis(ref_vertices, α)` evaluates to `1` at
`ref_vertices[α]` and to `0` at `ref_vertices[β]` for `β ≠ α`. -/
theorem lagrange_basis_kronecker (d : ℕ) (hd : 1 ≤ d) (α β : ℕ)
    (hα : α ≤ d) (hβ : β ≤ d) :
    lagrange_basis (ref_vertices d) (d + 1) α (ref_vertices d α) = 1
    ∧ (β ≠ α →
        lagrange_basis (ref_vertices d) (d + 1) α (ref_vertices d β) = 0) := by
  constructor
  · rw [lagrange_basis]
    apply Finset.prod_eq_one
    intro j hj
    have hne : α ≠ j := fun h => (Finset.mem_erase.mp hj).1 h.symm
    exact div_self (sub_ne_zero.mpr (ref_vertices_injOn d hd hne))
  · intro hne
    rw [lagrange_basis]
    exact Finset.prod_eq_zero
      (Finset.mem_erase.mpr ⟨hne, Finset.mem_range.mpr (by omega)⟩) (by simp)

/-- Witness for C3 at `d = 2`, `α = 1`, `β = 2`. -/
theorem lagrange_basis_kronecker_witness :
    lagrange_basis (ref_vertices 2) (2 + 1) 1 (ref_vertices 2 1) = 1
    ∧ lagrange_basis (ref_vertices 2) (2 + 1) 1 (ref_vertices 2 2) = 0 :=
  ⟨(lagrange_basis_kronecker 2 (by norm_num) 1 2 (by norm_num) (by norm_num)).1,
    (lagrange_basis_kronecker 2 (by norm_num) 1 2 (by norm_num) (by norm_num)).2
      (by norm_num)⟩

/-- Claim C10: no division by zero in the basis construction: the `d+1`
support points `linspace(0,1,d+1)` are pairwise distinct so every Lagrange
denominator `ref_vertices[α] - ref_vertices[j]` (`j ≠ α`) is nonzero, and the
per-element divisor `mapping_J(vertices, k)` is nonzero whenever `a < b`. -/
theorem no_zero_denominators (d M : ℕ) (hd : 1 ≤ d) (hM : 1 ≤ M)
    (α j k : ℕ) (hα : α ≤ d) (hj : j ≤ d) (hne : j ≠ α) (hk : k < M)
    (a b : ℝ) (hab : a < b) :
    ref_vertices d α - ref_vertices d j ≠ 0
    ∧ mapping_J (vertices a b M) k ≠ 0 := by
  constructor
  · exact sub_ne_zero.mpr (ref_vertices_injOn d hd (Ne.symm hne))
  · rw [vertices_mapping_J a b M hM k]
    have hM0 : (M : ℝ) ≠ 0 := Nat.cast_ne_zero.mpr (by omega)
    exact div_ne_zero (sub_ne_zero.mpr (ne_of_gt hab)) hM0

/-- Witness for C10 at `d = 1`, `M = 2`, `α = 0`, `j = 1`, `k = 1`, `[a,b] = [0,1]`. -/
theorem no_zero_denominators_witness :
    ref_vertices 1 0 - ref_vertices 1 1 ≠ 0
    ∧ mapping_J (vertices 0 1 2) 1 ≠ 0 :=
  no_zero_denominators 1 2 (by norm_num) (by norm_num) 0 1 1 (by norm_num)
    (by norm_num) (by norm_num) (by norm_num) 0 1 (by norm_num)

/-! ## Quadrature, assembly, boundary conditions, solve (the `fem` function)

`fem` obtains `(q, w)` from `numpy.polynomial.legendre.leggauss(2*degree+1)`
(an external library call); the embedding takes the raw rule `(gq, gw)` as a
parameter and applies the same rescaling `q ← (q+1)/2`, `w ← w/2` as the code. -/

/-- Rescaled quadrature node `q = (q+1)/2` of `fem`. -/
def qhat (gq : ℕ → ℝ) (j : ℕ) : ℝ := (gq j + 1) / 2

/-- Rescaled quadrature weight `w = w/2` of `fem`. -/
def what (gw : ℕ → ℝ) (j : ℕ) : ℝ := gw j / 2

/-- `Vq[j,i] = lagrange_basis(ref_vertices, i)(q[j])` in `fem`. -/
def Vq (degree : ℕ) (gq : ℕ → ℝ) (j i : ℕ) : ℝ :=
  lagrange_basis (ref_vertices degree) (degree + 1) i (qhat gq j)

/-- `Vprimeq[j,i] = lagrange_basis_derivative(ref_vertices, i)(q[j])` in `fem`. -/
def Vprimeq (degree : ℕ) (gq : ℕ → ℝ) (j i : ℕ) : ℝ :=
  lagrange_basis_derivative (ref_vertices degree) (degree + 1) i (qhat gq j)

/-- `Bq[k,j,i]`: zero-initialised and then `Bq[k,:,P[k]] = Vq.T`, so the entry
is `Vq[j, i - k*degree]` when `i` lies in row `k` of the DOF table `P`
(i.e. `k*degree ≤ i ≤ k*degree + degree`) and `0` otherwise. -/
def Bq (degree : ℕ) (gq : ℕ → ℝ) (k j i : ℕ) : ℝ :=
  if k * degree ≤ i ∧ i ≤ k * degree + degree then Vq degree gq j (i - k * degree) else 0

/-- `Bprimeq[k,j,i]`: as `Bq` but from `Vprimeq.T / mapping_J(vertices, k)`. -/
def Bprimeq (M degree : ℕ) (a b : ℝ) (gq : ℕ → ℝ) (k j i : ℕ) : ℝ :=
  if k * degree ≤ i ∧ i ≤ k * degree + degree then
    Vprimeq degree gq j (i - k * degree) / mapping_J (vertices a b M) k
  else 0

/-- `JxW[k,j] = mapping_J(vertices, k) * w[j]` in `fem`. -/
def JxW (M : ℕ) (a b : ℝ) (gw : ℕ → ℝ) (k j : ℕ) : ℝ :=
  mapping_J (vertices a b M) k * what gw j

/-- `Q[k,j] = mapping(vertices, k)(q[j])`, the physical quadrature points. -/
def Xq (M : ℕ) (a b : ℝ) (gq : ℕ → ℝ) (k j : ℕ) : ℝ :=
  mapping (vertices a b M) k (qhat gq j)

/-- `stiffness_matrix = einsum('qi,qj,q', Bprimeq, Bprimeq, JxWq)`: the sum
over the flattened quadrature index `(k, j)`. -/
def stiffness_matrix (M degree : ℕ) (a b : ℝ) (gq gw : ℕ → ℝ) :
    Matrix (Fin (M * degree + 1)) (Fin (M * degree + 1)) ℝ :=
  fun i1 i2 => ∑ k ∈ Finset.range M, ∑ j ∈ Finset.range (nQ degree),
    Bprimeq M degree a b gq k j (i1 : ℕ) * Bprimeq M degree a b gq k j (i2 : ℕ)
      * JxW M a b gw k j

/-- `rhs = einsum('qi,q,q', Bq, rhs_function(Xq), JxWq)`: the load vector. -/
def rhs (M degree : ℕ) (a b : ℝ) (rhs_function : ℝ → ℝ) (gq gw : ℕ → ℝ) :
    Fin (M * degree + 1) → ℝ :=
  fun i => ∑ k ∈ Finset.range M, ∑ j ∈ Finset.range (nQ degree),
    Bq degree gq k j (i : ℕ) * rhs_function (Xq M a b gq k j) * JxW M a b gw k j

/-- After `stiffness_matrix[0,:] = 0` (first of the two chained row writes). -/
def stiffA1 (M degree : ℕ) (a b : ℝ) (gq gw : ℕ → ℝ) :
    Matrix (Fin (M * degree + 1)) (Fin (M * degree + 1)) ℝ :=
  (stiffness_matrix M degree a b gq gw).updateRow 0 (fun _ => 0)

/-- After `stiffness_matrix[-1,:] = 0`. -/
def stiffA2 (M degree : ℕ) (a b : ℝ) (gq gw : ℕ → ℝ) :
    Matrix (Fin (M * degree + 1)) (Fin (M * degree + 1)) ℝ :=
  (stiffA1 M degree a b gq gw).updateRow (Fin.last (M * degree)) (fun _ => 0)

/-- After `stiffness_matrix[0,0] = 1`. -/
def stiffA3 (M degree : ℕ) (a b : ℝ) (gq gw : ℕ → ℝ) :
    Matrix (Fin (M * degree + 1)) (Fin (M * degree + 1)) ℝ :=
  (stiffA2 M degree a b gq gw).updateRow 0
    (Function.update (stiffA2 M degree a b gq gw 0) 0 1)

/-- After `stiffness_matrix[-1,-1] = 1`: the final system matrix of `fem`. -/
def stiffness_matrixBC (M degree : ℕ) (a b : ℝ) (gq gw : ℕ → ℝ) :
    Matrix (Fin (M * degree + 1)) (Fin (M * degree + 1)) ℝ :=
  (stiffA3 M degree a b gq gw).updateRow (Fin.last (M * degree))
    (Function.update (stiffA3 M degree a b gq gw (Fin.last (M * degree)))
      (Fin.last (M * degree)) 1)

/-- After `rhs[0] = exact_function(a)` and `rhs[-1] = exact_function(b)`:
the final right-hand side of `fem`. -/
def rhsBC (M degree : ℕ) (a b : ℝ) (exact_function rhs_function : ℝ → ℝ)
    (gq gw : ℕ → ℝ) : Fin (M * degree + 1) → ℝ :=
  Function.update
    (Function.update (rhs M degree a b rhs_function gq gw) 0 (exact_function a))
    (Fin.last (M * degree)) (exact_function b)

/-- Failure conditions of a `fem` run: the `assert degree > 0`, the empty
`P.max()` reduction raised by `numpy` when `M = 0`, and a singular system in
the linear solve. -/
inductive FemError
  | invalidDegree
  | emptyReduction
  | singularSystem
  deriving DecidableEq

open Classical in
/-- Modelled from the spec: `numpy.linalg.solve` (external to the repository)
is a general dense solver that returns the solution of `A·u = f` and fails
with a singular-system condition when `A` is singular. -/
def linSolve {N : ℕ} (A : Matrix (Fin N) (Fin N) ℝ) (f : Fin N → ℝ) :
    Except FemError (Fin N → ℝ) :=
  if IsUnit A.det then Except.ok (A⁻¹.mulVec f) else Except.error FemError.singularSystem

/-- `error = sqrt(einsum('q,q', (Bq.dot(u) - exact_function(Xq))**2, JxWq))`. -/
def l2error (M degree : ℕ) (a b : ℝ) (exact_function : ℝ → ℝ) (gq gw : ℕ → ℝ)
    (u : Fin (M * degree + 1) → ℝ) : ℝ :=
  Real.sqrt (∑ k ∈ Finset.range M, ∑ j ∈ Finset.range (nQ degree),
    ((∑ i : Fin (M * degree + 1), Bq degree gq k j (i : ℕ) * u i)
        - exact_function (Xq M a b gq k j)) ^ 2 * JxW M a b gw k j)

/-- The whole `fem(M, exact_function, rhs_function, degree, a, b)` run, with
the raw Gauss-Legendre rule `(gq, gw)` supplied as a parameter. The only
input check in the code is `assert degree > 0`; with `M = 0` the run dies at
`assert P.max() == N-1` because `numpy` refuses the empty `max` reduction. -/
def fem (M : ℕ) (exact_function rhs_function : ℝ → ℝ) (degree : ℕ) (a b : ℝ)
    (gq gw : ℕ → ℝ) : Except FemError ℝ :=
  if degree = 0 then Except.error FemError.invalidDegree
  else if M = 0 then Except.error FemError.emptyReduction
  else (linSolve (stiffness_matrixBC M degree a b gq gw)
          (rhsBC M degree a b exact_function rhs_function gq gw)).map
        (l2error M degree a b exact_function gq gw)

/-! ## Boundary-row structure of the assembled system -/

lemma zero_ne_last (M d : ℕ) (h : 1 ≤ M * d) :
    (0 : Fin (M * d + 1)) ≠ Fin.last (M * d) := by
  intro hc
  have hv : (0 : ℕ) = M * d := by simpa [Fin.val_last] using congrArg Fin.val hc
  omega

lemma stiffBC_row_zero (M d : ℕ) (h : 1 ≤ M * d) (a b : ℝ) (gq gw : ℕ → ℝ)
    (j : Fin (M * d + 1)) :
    stiffness_matrixBC M d a b gq gw 0 j = if j = 0 then 1 else 0 := by
  have h0l := zero_ne_last M d h
  simp only [stiffness_matrixBC, stiffA3, stiffA2, stiffA1,
    Matrix.updateRow_ne h0l, Matrix.updateRow_self, Function.update_apply]

lemma stiffBC_row_last (M d : ℕ) (h : 1 ≤ M * d) (a b : ℝ) (gq gw : ℕ → ℝ)
    (j : Fin (M * d + 1)) :
    stiffness_matrixBC M d a b gq gw (Fin.last (M * d)) j
      = if j = Fin.last (M * d) then 1 else 0 := by
  have hl0 : (Fin.last (M * d) : Fin (M * d + 1)) ≠ 0 := (zero_ne_last M d h).symm
  simp only [stiffness_matrixBC, stiffA3, stiffA2, stiffA1,
    Matrix.updateRow_self, Matrix.updateRow_ne hl0, Function.update_apply]

lemma stiffBC_interior (M d : ℕ) (a b : ℝ) (gq gw : ℕ → ℝ)
    (i j : Fin (M * d + 1)) (hi0 : i ≠ 0) (hil : i ≠ Fin.last (M * d)) :
    stiffness_matrixBC M d a b gq gw i j = stiffness_matrix M d a b gq gw i j := by
  simp only [stiffness_matrixBC, stiffA3, stiffA2, stiffA1,
    Matrix.updateRow_ne hil, Matrix.updateRow_ne hi0]

lemma rhsBC_zero (M d : ℕ) (h : 1 ≤ M * d) (a b : ℝ)
    (exact_function rhs_function : ℝ → ℝ) (gq gw : ℕ → ℝ) :
    rhsBC M d a b exact_function rhs_function gq gw 0 = exact_function a := by
  have h0l := zero_ne_last M d h
  simp [rhsBC, Function.update_noteq h0l]

lemma rhsBC_last (M d : ℕ) (a b : ℝ)
    (exact_function rhs_function : ℝ → ℝ) (gq gw : ℕ → ℝ) :
    rhsBC M d a b exact_function rhs_function gq gw (Fin.last (M * d))
      = exact_function b := by
  simp [rhsBC]

lemma rhsBC_interior (M d : ℕ) (a b : ℝ)
    (exact_function rhs_function : ℝ → ℝ) (gq gw : ℕ → ℝ)
    (i : Fin (M * d + 1)) (hi0 : i ≠ 0) (hil : i ≠ Fin.last (M * d)) :
    rhsBC M d a b exact_function rhs_function gq gw i
      = rhs M d a b rhs_function gq gw i := by
  simp [rhsBC, Function.update_noteq hil, Function.update_noteq hi0]

lemma stiffness_matrix_symm (M d : ℕ) (a b : ℝ) (gq gw : ℕ → ℝ)
    (i j : Fin (M * d + 1)) :
    stiffness_matrix M d a b gq gw i j = stiffness_matrix M d a b gq gw j i := by
  unfold stiffness_matrix
  refine Finset.sum_congr rfl fun k _ => Finset.sum_congr rfl fun l _ => by ring

lemma one_le_mul_of_one_le (M d : ℕ) (hM : 1 ≤ M) (hd : 1 ≤ d) : 1 ≤ M * d :=
  Nat.one_le_iff_ne_zero.mpr (Nat.mul_ne_zero (by omega) (by omega))

/-- Claim C4: after assembly, `fem` replaces row `0` and row `N-1` of the
stiffness matrix by the corresponding unit rows (zeros then a `1` on the
diagonal), sets `f[0] = exact(a)` and `f[N-1] = exact(b)`, and every other row
of the matrix and every other entry of the load vector keeps exactly its
assembled scatter-add value. -/
theorem dirichlet_row_replacement (M d : ℕ) (hM : 1 ≤ M) (hd : 1 ≤ d)
    (a b : ℝ) (exact_function rhs_function : ℝ → ℝ) (gq gw : ℕ → ℝ) :
    (∀ j, stiffness_matrixBC M d a b gq gw 0 j = if j = 0 then 1 else 0)
    ∧ (∀ j, stiffness_matrixBC M d a b gq gw (Fin.last (M * d)) j
        = if j = Fin.last (M * d) then 1 else 0)
    ∧ (∀ i j : Fin (M * d + 1), i ≠ 0 → i ≠ Fin.last (M * d) →
        stiffness_matrixBC M d a b gq gw i j = stiffness_matrix M d a b gq gw i j)
    ∧ rhsBC M d a b exact_function rhs_function gq gw 0 = exact_function a
    ∧ rhsBC M d a b exact_function rhs_function gq gw (Fin.last (M * d))
        = exact_function b
    ∧ (∀ i : Fin (M * d + 1), i ≠ 0 → i ≠ Fin.last (M * d) →
        rhsBC M d a b exact_function rhs_function gq gw i
          = rhs M d a b rhs_function gq gw i) := by
  have h := one_le_mul_of_one_le M d hM hd
  exact ⟨stiffBC_row_zero M d h a b gq gw,
    stiffBC_row_last M d h a b gq gw,
    fun i j hi0 hil => stiffBC_interior M d a b gq gw i j hi0 hil,
    rhsBC_zero M d h a b exact_function rhs_function gq gw,
    rhsBC_last M d a b exact_function rhs_function gq gw,
    fun i hi0 hil => rhsBC_interior M d a b exact_function rhs_function gq gw i hi0 hil⟩

/-- Witness for C4 at `M = 2`, `d = 1`, `[a,b] = [0,1]`, zero data and rule. -/
theorem dirichlet_row_replacement_witness :
    stiffness_matrixBC 2 1 0 1 (fun _ => 0) (fun _ => 0) 0 0 = 1
    ∧ rhsBC 2 1 0 1 (fun x => x) (fun _ => 0) (fun _ => 0) (fun _ => 0) 0
        = (fun x : ℝ => x) 0 := by
  have h := dirichlet_row_replacement 2 1 (by norm_num) (by norm_num) 0 1
    (fun x => x) (fun _ => 0) (fun _ => 0) (fun _ => 0)
  refine ⟨?_, h.2.2.2.1⟩
  rw [h.1 0]
  simp

/-- Claim C7: the final system matrix is symmetric away from the two boundary
rows: `A[i,j] = A[j,i]` whenever neither `i` nor `j` is `0` or `N-1`. -/
theorem stiffness_symmetric_interior (M d : ℕ) (hM : 1 ≤ M) (hd : 1 ≤ d)
    (a b : ℝ) (hab : a < b) (gq gw : ℕ → ℝ) (i j : Fin (M * d + 1))
    (hi0 : i ≠ 0) (hil : i ≠ Fin.last (M * d))
    (hj0 : j ≠ 0) (hjl : j ≠ Fin.last (M * d)) :
    stiffness_matrixBC M d a b gq gw i j = stiffness_matrixBC M d a b gq gw j i := by
  rw [stiffBC_interior M d a b gq gw i j hi0 hil,
    stiffBC_interior M d a b gq gw j i hj0 hjl]
  exact stiffness_matrix_symm M d a b gq gw i j

/-- Witness for C7 at `M = 3`, `d = 1` (`N = 4`), interior indices `1` and `2`. -/
theorem stiffness_symmetric_interior_witness :
    stiffness_matrixBC 3 1 0 1 (fun _ => 0) (fun _ => 0) 1 2
      = stiffness_matrixBC 3 1 0 1 (fun _ => 0) (fun _ => 0) 2 1 :=
  stiffness_symmetric_interior 3 1 (by norm_num) (by norm_num) 0 1 (by norm_num)
    (fun _ => 0) (fun _ => 0) 1 2 (by decide) (by decide) (by decide) (by decide)

/-! ## Concrete data used by witnesses -/

/-- Identity as a concrete `exact_function`. -/
def idf : ℝ → ℝ := fun x => x

/-- Zero as a concrete `rhs_function`. -/
def zf : ℝ → ℝ := fun _ => 0

/-- A placeholder raw quadrature-node sequence (the failure behaviour of `fem`
does not depend on the rule's values). -/
def gq0 : ℕ → ℝ := fun _ => 0

/-- A placeholder raw quadrature-weight sequence. -/
def gw0 : ℕ → ℝ := fun _ => 0

lemma fin2_cases (i : Fin (1 * 1 + 1)) : i = 0 ∨ i = Fin.last (1 * 1) := by
  rcases i with ⟨v, hv⟩
  have hv2 : v = 0 ∨ v = 1 := by omega
  rcases hv2 with rfl | rfl
  · left; rfl
  · right; rfl

/-- With `M = d = 1` the system has `N = 2` DOFs, both on the boundary, so the
final matrix is the identity whatever the data and the quadrature rule. -/
lemma stiffBC_one (a b : ℝ) (gq gw : ℕ → ℝ) :
    stiffness_matrixBC 1 1 a b gq gw = 1 := by
  apply Matrix.ext
  intro i j
  have h : (1 : ℕ) ≤ 1 * 1 := le_refl _
  rcases fin2_cases i with rfl | rfl
  · rw [stiffBC_row_zero 1 1 h a b gq gw j, Matrix.one_apply]
    by_cases hj : j = 0
    · simp [hj]
    · rw [if_neg hj, if_neg (fun hc => hj hc.symm)]
  · rw [stiffBC_row_last 1 1 h a b gq gw j, Matrix.one_apply]
    by_cases hj : j = Fin.last (1 * 1)
    · simp [hj]
    · rw [if_neg hj, if_neg (fun hc => hj hc.symm)]

/-! ## Linear solve and boundary values of the solution -/

/-- Claim C6: whenever the linear solve of the boundary-corrected system
succeeds with solution `u`, the discrete solution takes the exact boundary
values: `u[0] = exact(a)` and `u[N-1] = exact(b)` (exactly, in the real
arithmetic of the model). -/
theorem boundary_exactness (M d : ℕ) (hM : 1 ≤ M) (hd : 1 ≤ d)
    (a b : ℝ) (hab : a < b) (exact_function rhs_function : ℝ → ℝ)
    (gq gw : ℕ → ℝ) (u : Fin (M * d + 1) → ℝ)
    (hu : linSolve (stiffness_matrixBC M d a b gq gw)
            (rhsBC M d a b exact_function rhs_function gq gw) = Except.ok u) :
    u 0 = exact_function a ∧ u (Fin.last (M * d)) = exact_function b := by
  have h1 := one_le_mul_of_one_le M d hM hd
  by_cases hdet : IsUnit (stiffness_matrixBC M d a b gq gw).det
  · rw [linSolve, if_pos hdet] at hu
    have hu' : (stiffness_matrixBC M d a b gq gw)⁻¹.mulVec
        (rhsBC M d a b exact_function rhs_function gq gw) = u := Except.ok.inj hu
    have hAu : (stiffness_matrixBC M d a b gq gw).mulVec u
        = rhsBC M d a b exact_function rhs_function gq gw := by
      rw [← hu', Matrix.mulVec_mulVec,
        Matrix.mul_nonsing_inv (stiffness_matrixBC M d a b gq gw) hdet,
        Matrix.one_mulVec]
    have hrow0 : (stiffness_matrixBC M d a b gq gw).mulVec u 0 = u 0 := by
      simp only [Matrix.mulVec, Matrix.dotProduct]
      have hterm : ∀ j, stiffness_matrixBC M d a b gq gw 0 j * u j
          = if j = 0 then u j else 0 := fun j => by
        rw [stiffBC_row_zero M d h1 a b gq gw j]
        split <;> simp
      simp_rw [hterm]
      simp
    have hrowl : (stiffness_matrixBC M d a b gq gw).mulVec u (Fin.last (M * d))
        = u (Fin.last (M * d)) := by
      simp only [Matrix.mulVec, Matrix.dotProduct]
      have hterm : ∀ j, stiffness_matrixBC M d a b gq gw (Fin.last (M * d)) j * u j
          = if j = Fin.last (M * d) then u j else 0 := fun j => by
        rw [stiffBC_row_last M d h1 a b gq gw j]
        split <;> simp
      simp_rw [hterm]
      simp
    refine ⟨?_, ?_⟩
    · rw [← hrow0, hAu, rhsBC_zero M d h1 a b exact_function rhs_function gq gw]
    · rw [← hrowl, hAu, rhsBC_last M d a b exact_function rhs_function gq gw]
  · rw [linSolve, if_neg hdet] at hu
    exact absurd hu (by simp)

/-- Witness for C6: with `M = d = 1` on `[0,1]` the final matrix is the
identity, the solve succeeds with `u = f`, and the boundary values are
`idf 0` and `idf 1`. -/
theorem boundary_exactness_witness :
    linSolve (stiffness_matrixBC 1 1 0 1 gq0 gw0) (rhsBC 1 1 0 1 idf zf gq0 gw0)
      = Except.ok (rhsBC 1 1 0 1 idf zf gq0 gw0)
    ∧ rhsBC 1 1 0 1 idf zf gq0 gw0 0 = idf 0
    ∧ rhsBC 1 1 0 1 idf zf gq0 gw0 (Fin.last (1 * 1)) = idf 1 := by
  have hsolve : linSolve (stiffness_matrixBC 1 1 0 1 gq0 gw0)
      (rhsBC 1 1 0 1 idf zf gq0 gw0)
      = Except.ok (rhsBC 1 1 0 1 idf zf gq0 gw0) := by
    rw [stiffBC_one 0 1 gq0 gw0, linSolve,
      if_pos (by simp : IsUnit (1 : Matrix (Fin (1 * 1 + 1)) (Fin (1 * 1 + 1)) ℝ).det)]
    rw [inv_one, Matrix.one_mulVec]
  have h := boundary_exactness 1 1 (le_refl 1) (le_refl 1) 0 1 (by norm_num)
    idf zf gq0 gw0 (rhsBC 1 1 0 1 idf zf gq0 gw0) hsolve
  exact ⟨hsolve, h.1, h.2⟩

/-! ## Input validation -/

/-- Claim C8: a call with `degree = 0` fails at the initial
`assert degree > 0` (the InvalidDegree condition) before any further work,
and for every `degree ≥ 1` that check passes (the run never reports
InvalidDegree). -/
theorem degree_validation (M : ℕ) (exact_function rhs_function : ℝ → ℝ)
    (d : ℕ) (a b : ℝ) (gq gw : ℕ → ℝ) :
    fem M exact_function rhs_function 0 a b gq gw
      = Except.error FemError.invalidDegree
    ∧ (1 ≤ d → fem M exact_function rhs_function d a b gq gw
        ≠ Except.error FemError.invalidDegree) := by
  constructor
  · rw [fem, if_pos rfl]
  · intro hd
    rw [fem, if_neg (by omega)]
    by_cases hM : M = 0
    · rw [if_pos hM]
      simp
    · rw [if_neg hM]
      by_cases hdet : IsUnit (stiffness_matrixBC M d a b gq gw).det
      · rw [linSolve, if_pos hdet]
        simp [Except.map]
      · rw [linSolve, if_neg hdet]
        simp [Except.map]

/-- Witness for C8 at `M = 1`, degrees `0` and `1`. -/
theorem degree_validation_witness :
    fem 1 idf zf 0 0 1 gq0 gw0 = Except.error FemError.invalidDegree
    ∧ fem 1 idf zf 1 0 1 gq0 gw0 ≠ Except.error FemError.invalidDegree :=
  ⟨(degree_validation 1 idf zf 1 0 1 gq0 gw0).1,
    (degree_validation 1 idf zf 1 0 1 gq0 gw0).2 (le_refl 1)⟩

/-- Counterexample to claim C5: the code never checks the mesh. With `M = 1`,
`degree = 1`, `a = 1 ≥ b = 0` the run does not fail at all — it silently
returns an error value (the solve sees the identity matrix, since both DOFs
are boundary DOFs). -/
theorem no_mesh_validation_counterexample :
    fem 1 idf zf 1 1 0 gq0 gw0
      = Except.ok (l2error 1 1 1 0 idf gq0 gw0 (rhsBC 1 1 1 0 idf zf gq0 gw0)) := by
  rw [fem, if_neg (by omega), if_neg (by omega)]
  rw [stiffBC_one 1 0 gq0 gw0, linSolve,
    if_pos (by simp : IsUnit (1 : Matrix (Fin (1 * 1 + 1)) (Fin (1 * 1 + 1)) ℝ).det)]
  rw [inv_one, Matrix.one_mulVec]
  rfl

/-- Amended claim C5: the code performs no mesh validation. A call with
`M < 1` fails only incidentally, at `assert P.max() == N-1`, because `numpy`
rejects the empty `max` reduction (not an InvalidMesh check at the mesh
boundary); and a call with `a ≥ b` is not detected at all: for `M ≥ 1`,
`degree ≥ 1` and arbitrary endpoints the only possible failure of the run is
a singular linear system. -/
theorem no_mesh_validation (M d : ℕ) (hd : 1 ≤ d)
    (exact_function rhs_function : ℝ → ℝ) (a b : ℝ) (gq gw : ℕ → ℝ) :
    fem 0 exact_function rhs_function d a b gq gw
      = Except.error FemError.emptyReduction
    ∧ (1 ≤ M → ∀ e, fem M exact_function rhs_function d a b gq gw
        = Except.error e → e = FemError.singularSystem) := by
  constructor
  · rw [fem, if_neg (by omega), if_pos rfl]
  · intro hM e he
    rw [fem, if_neg (by omega), if_neg (by omega)] at he
    by_cases hdet : IsUnit (stiffness_matrixBC M d a b gq gw).det
    · rw [linSolve, if_pos hdet] at he
      simp [Except.map] at he
    · rw [linSolve, if_neg hdet] at he
      simp only [Except.map] at he
      exact (Except.error.inj he).symm

/-- Witness for the amended claim C5, at `M = 0`, `degree = 1`. -/
theorem no_mesh_validation_witness :
    (1 ≤ 1) ∧ fem 0 idf zf 1 0 1 gq0 gw0 = Except.error FemError.emptyReduction :=
  ⟨le_refl 1, (no_mesh_validation 1 1 (le_refl 1) idf zf 0 1 gq0 gw0).1⟩

/-! ## Quadrature exactness

`fem` takes `n = 2*degree+1` node/weight pairs from `leggauss` on `[-1,1]`
and rescales them to `[0,1]` by `q ← (q+1)/2`, `w ← w/2` (the functions
`qhat`, `what` above). `leggauss` is an external library routine; its defining
Gauss-Legendre property — exactness up to degree `2n-1` on `[-1,1]` — enters
as a hypothesis. -/

/-- The action of an `n`-point quadrature rule: `∑_j w[j] * f(q[j])`. -/
def quadSum (n : ℕ) (node wt : ℕ → ℝ) (f : ℝ → ℝ) : ℝ :=
  ∑ j ∈ Finset.range n, wt j * f (node j)

lemma quadSum_poly_exact (n : ℕ) (node wt : ℕ → ℝ) (lo hi : ℝ) (m : ℕ)
    (h : ∀ k, k ≤ m → quadSum n node wt (fun x => x ^ k) = ∫ x in lo..hi, x ^ k)
    (p : Polynomial ℝ) (hp : p.natDegree ≤ m) :
    quadSum n node wt (fun x => p.eval x) = ∫ x in lo..hi, p.eval x := by
  have hdeg : p.natDegree < m + 1 := Nat.lt_succ_of_le hp
  have heval : ∀ x : ℝ, p.eval x = ∑ k ∈ Finset.range (m + 1), p.coeff k * x ^ k :=
    fun x => Polynomial.eval_eq_sum_range' hdeg x
  calc quadSum n node wt (fun x => p.eval x)
      = ∑ j ∈ Finset.range n, wt j * ∑ k ∈ Finset.range (m + 1), p.coeff k * node j ^ k :=
        Finset.sum_congr rfl fun j _ => by simp only [heval]
    _ = ∑ k ∈ Finset.range (m + 1), p.coeff k * ∑ j ∈ Finset.range n, wt j * node j ^ k := by
        simp_rw [Finset.mul_sum]
        rw [Finset.sum_comm]
        exact Finset.sum_congr rfl fun k _ => Finset.sum_congr rfl fun j _ => by ring
    _ = ∑ k ∈ Finset.range (m + 1), p.coeff k * ∫ x in lo..hi, x ^ k :=
        Finset.sum_congr rfl fun k hk => by
          rw [show (∑ j ∈ Finset.range n, wt j * node j ^ k)
              = quadSum n node wt (fun x => x ^ k) from rfl,
            h k (Nat.lt_succ_iff.mp (Finset.mem_range.mp hk))]
    _ = ∫ x in lo..hi, ∑ k ∈ Finset.range (m + 1), p.coeff k * x ^ k := by
        rw [intervalIntegral.integral_finset_sum
          (fun k _ => ((continuous_const.mul (continuous_pow k)).intervalIntegrable lo hi))]
        exact Finset.sum_congr rfl fun k _ =>
          (intervalIntegral.integral_const_mul _ _).symm
    _ = ∫ x in lo..hi, p.eval x :=
        intervalIntegral.integral_congr fun x _ => (heval x).symm

/-- Claim C2: `fem` builds its quadrature rule from `n = 2*degree+1`
Gauss-Legendre node/weight pairs on `[-1,1]`, rescaled to `[0,1]` via
`q ← (q+1)/2` and `w ← w/2`. Given the defining Gauss-Legendre exactness of
the raw rule (degree `2n-1 = 4d+1` on `[-1,1]`; modelled from the spec, as
`leggauss` is external), the rescaled rule integrates every polynomial of
degree `≤ 4d+1` exactly over `[0,1]`. -/
theorem quadrature_exactness (d : ℕ) (hd : 1 ≤ d) (gq gw : ℕ → ℝ)
    (hgauss : ∀ k, k ≤ 4 * d + 1 →
      quadSum (nQ d) gq gw (fun x => x ^ k) = ∫ x in (-1 : ℝ)..1, x ^ k) :
    nQ d = 2 * d + 1
    ∧ ∀ p : Polynomial ℝ, p.natDegree ≤ 4 * d + 1 →
        quadSum (nQ d) (qhat gq) (what gw) (fun x => p.eval x)
          = ∫ x in (0 : ℝ)..1, p.eval x := by
  refine ⟨rfl, fun p hp => ?_⟩
  set p2 := p.comp (Polynomial.C (1/2 : ℝ) * Polynomial.X + Polynomial.C (1/2)) with hp2
  have hdeg2 : p2.natDegree ≤ 4 * d + 1 := by
    rw [hp2, Polynomial.natDegree_comp,
      Polynomial.natDegree_linear (by norm_num : (1/2 : ℝ) ≠ 0), mul_one]
    exact hp
  have heval2 : ∀ x : ℝ, p2.eval x = p.eval ((x + 1) / 2) := fun x => by
    rw [hp2, Polynomial.eval_comp, Polynomial.eval_add, Polynomial.eval_mul,
      Polynomial.eval_C, Polynomial.eval_X]
    congr 1
    ring
  have hmain := quadSum_poly_exact (nQ d) gq gw (-1) 1 (4 * d + 1) hgauss p2 hdeg2
  have hlhs : quadSum (nQ d) (qhat gq) (what gw) (fun x => p.eval x)
      = (1/2) * quadSum (nQ d) gq gw (fun x => p2.eval x) := by
    unfold quadSum
    rw [Finset.mul_sum]
    refine Finset.sum_congr rfl fun j _ => ?_
    simp only [heval2, qhat, what]
    ring
  have hrhs : (∫ x in (-1 : ℝ)..1, p2.eval x) = 2 * ∫ x in (0 : ℝ)..1, p.eval x := by
    have hcongr : (∫ x in (-1 : ℝ)..1, p2.eval x)
        = ∫ x in (-1 : ℝ)..1, p.eval ((1/2) * x + 1/2) := by
      refine intervalIntegral.integral_congr fun x _ => ?_
      rw [heval2 x]
      congr 1
      ring
    rw [hcongr, intervalIntegral.integral_comp_mul_add (fun y => p.eval y)
      (by norm_num : (1/2 : ℝ) ≠ 0) (1/2)]
    norm_num
  rw [hlhs, hmain, hrhs]
  ring

/-- The 3-point Gauss-Legendre nodes on `[-1,1]` (what `leggauss(3)` returns,
in exact arithmetic). -/
def g3node : ℕ → ℝ := fun j =>
  if j = 0 then -Real.sqrt (3/5) else if j = 1 then 0 else Real.sqrt (3/5)

/-- The 3-point Gauss-Legendre weights on `[-1,1]`. -/
def g3wt : ℕ → ℝ := fun j => if j = 0 then 5/9 else if j = 1 then 8/9 else 5/9

/-- The 3-point rule is exact on `[-1,1]` for monomials up to degree 5. -/
lemma g3_exact : ∀ k, k ≤ 4 * 1 + 1 →
    quadSum (nQ 1) g3node g3wt (fun x => x ^ k) = ∫ x in (-1 : ℝ)..1, x ^ k := by
  intro k hk
  have hs : Real.sqrt (3/5) ^ 2 = 3/5 := Real.sq_sqrt (by norm_num)
  rw [show nQ 1 = 3 from rfl, integral_pow]
  simp only [quadSum, Finset.sum_range_succ, Finset.sum_range_zero, g3node, g3wt]
  push_cast
  interval_cases k
  · linear_combination (0 : ℝ) * hs
  · linear_combination (0 : ℝ) * hs
  · linear_combination (10/9 : ℝ) * hs
  · linear_combination (0 : ℝ) * hs
  · linear_combination (10/9 : ℝ) * (Real.sqrt (3/5) ^ 2 + 3/5) * hs
  · linear_combination (0 : ℝ) * hs

/-- Witness for C2: the concrete 3-point Gauss-Legendre rule (`d = 1`),
with the rescaled-rule conclusion instantiated at `p = X^3`. -/
theorem quadrature_exactness_witness :
    quadSum (nQ 1) (qhat g3node) (what g3wt)
        (fun x => (Polynomial.X ^ 3 : Polynomial ℝ).eval x)
      = ∫ x in (0 : ℝ)..1, (Polynomial.X ^ 3 : Polynomial ℝ).eval x :=
  (quadrature_exactness 1 (le_refl 1) g3node g3wt g3_exact).2 (Polynomial.X ^ 3)
    (by rw [Polynomial.natDegree_X_pow]; norm_num)
